import Mathlib

/-!
Verification of the minesweeper core (classes `Cell` and `GameBoard`, plus the
board-mutating parts of the `Minesweeper` click handlers) of `扫雷.py`.

Shallow embedding conventions:
* the mutable `rows × cols` grid of `Cell` objects becomes a total function
  `Nat → Nat → Cell`, mutated by functional override;
* `random.sample(available_cells, mines)` becomes an explicit list parameter
  whose guarantees (distinct elements drawn from `available_cells`, exactly
  `mines` of them) are captured by the predicate `SampleOK`;
* the unbounded Python recursion of `reveal_cell` becomes a fuel-indexed
  recursion `revealFuel`; `reveal_cell` runs it with fuel `rows*cols + 1`,
  and the development proves this fuel is always sufficient;
* Python list indexing (including silent negative-index wrap-around and the
  `IndexError` raised outside `[-len, len)`) is modelled by `pyIdx`, with
  `Option`-valued entry points `reveal_cellI` / `toggle_flagI` for calls whose
  coordinates may lie outside the grid.
-/

namespace Minesweeper

/-- The cell-state constants `HIDDEN` / `REVEALED` / `FLAGGED` of the source. -/
inductive CellState
  | Hidden
  | Revealed
  | Flagged
deriving DecidableEq

/-- Class `Cell`: one grid square with its coordinates, mine flag, state and
stored neighbour-mine count (`Cell.__init__`). -/
structure Cell where
  row : Nat
  col : Nat
  is_mine : Bool
  state : CellState
  neighbor_mines : Nat
deriving DecidableEq

/-- Class `GameBoard`: dimensions, mine budget, the grid, and the global
game flags (`GameBoard.__init__`). -/
structure GameBoard where
  rows : Nat
  cols : Nat
  mines : Nat
  grid : Nat → Nat → Cell
  game_over : Bool
  first_click : Bool
  remaining_mines : Int

/-- `GameBoard.__init__(rows, cols, mines)`: every cell starts non-mine and
Hidden with count 0; no validation of any argument is performed. -/
def initBoard (rows cols mines : Nat) : GameBoard :=
  { rows := rows
    cols := cols
    mines := mines
    grid := fun r c =>
      { row := r, col := c, is_mine := false, state := CellState.Hidden,
        neighbor_mines := 0 }
    game_over := false
    first_click := true
    remaining_mines := (mines : Int) }

/-- Override the grid at one position (assignment to a cell attribute). -/
def updateCell (b : GameBoard) (r c : Nat) (f : Cell → Cell) : GameBoard :=
  { b with grid := fun r' c' =>
      if r' = r ∧ c' = c then f (b.grid r' c') else b.grid r' c' }

/-- `cell.state = s` for the cell at `(r, c)`. -/
def setCellState (b : GameBoard) (r c : Nat) (s : CellState) : GameBoard :=
  updateCell b r c fun cell => { cell with state := s }

/-- `cell.is_mine = True` for the cell at `(r, c)`. -/
def setMine (b : GameBoard) (r c : Nat) : GameBoard :=
  updateCell b r c fun cell => { cell with is_mine := true }

/-- The 8 neighbour offsets: `dr in [-1,0,1], dc in [-1,0,1]` skipping
`(0, 0)`, in the order the source loops visit them. -/
def offsets : List (Int × Int) :=
  [(-1, -1), (-1, 0), (-1, 1), (0, -1), (0, 1), (1, -1), (1, 0), (1, 1)]

/-- All 9 offsets of the safety-zone loop in `place_mines` (centre kept). -/
def offsets9 : List (Int × Int) :=
  [(-1, -1), (-1, 0), (-1, 1), (0, -1), (0, 0), (0, 1), (1, -1), (1, 0), (1, 1)]

/-- Apply an offset list to (possibly negative) centre coordinates, keeping
the in-bounds results: the `0 <= nr < rows and 0 <= nc < cols` guard of the
source loops. -/
def nbrsInt (ord : List (Int × Int)) (rows cols : Nat) (row col : Int) :
    List (Nat × Nat) :=
  ord.filterMap fun d =>
    if 0 ≤ row + d.1 ∧ row + d.1 < (rows : Int) ∧
        0 ≤ col + d.2 ∧ col + d.2 < (cols : Int) then
      some ((row + d.1).toNat, (col + d.2).toNat)
    else none

/-- In-bounds neighbours of an in-bounds cell, visited in the order `ord`. -/
def nbrsO (ord : List (Int × Int)) (rows cols r c : Nat) : List (Nat × Nat) :=
  nbrsInt ord rows cols (r : Int) (c : Int)

/-- In-bounds neighbours in the source's loop order. -/
def nbrs (rows cols r c : Nat) : List (Nat × Nat) :=
  nbrsO offsets rows cols r c

/-- `q` is a grid position within Chebyshev distance 1 of `(r, c)`, other
than `(r, c)` itself. -/
def adjacent (r c : Nat) (q : Nat × Nat) : Prop :=
  ((q.1 : Int) - (r : Int)).natAbs ≤ 1 ∧ ((q.2 : Int) - (c : Int)).natAbs ≤ 1 ∧
    q ≠ (r, c)

instance (r c : Nat) (q : Nat × Nat) : Decidable (adjacent r c q) := by
  unfold adjacent
  infer_instance

/-- Characterisation of membership in `offsets`. -/
theorem mem_offsets (d : Int × Int) :
    d ∈ offsets ↔ d.1.natAbs ≤ 1 ∧ d.2.natAbs ≤ 1 ∧ d ≠ (0, 0) := by
  simp only [offsets, List.mem_cons, List.not_mem_nil, or_false,
    Prod.ext_iff, ne_eq, not_and]
  constructor
  · intro h
    rcases h with h | h | h | h | h | h | h | h <;>
      simp [h.1, h.2] at * <;> omega
  · rintro ⟨h1, h2, h3⟩
    have hd1 : d.1 = -1 ∨ d.1 = 0 ∨ d.1 = 1 := by omega
    have hd2 : d.2 = -1 ∨ d.2 = 0 ∨ d.2 = 1 := by omega
    have hne : ¬(d.1 = 0 ∧ d.2 = 0) := by
      intro hh
      exact h3 hh.1 hh.2
    rcases hd1 with h | h | h <;> rcases hd2 with h' | h' | h' <;>
      simp [h, h'] at * <;> omega

/-- Characterisation of membership in `offsets9`. -/
theorem mem_offsets9 (d : Int × Int) :
    d ∈ offsets9 ↔ d.1.natAbs ≤ 1 ∧ d.2.natAbs ≤ 1 := by
  simp only [offsets9, List.mem_cons, List.not_mem_nil, or_false,
    Prod.ext_iff]
  constructor
  · intro h
    rcases h with h | h | h | h | h | h | h | h | h <;>
      simp [h.1, h.2] at * <;> omega
  · rintro ⟨h1, h2⟩
    have hd1 : d.1 = -1 ∨ d.1 = 0 ∨ d.1 = 1 := by omega
    have hd2 : d.2 = -1 ∨ d.2 = 0 ∨ d.2 = 1 := by omega
    rcases hd1 with h | h | h <;> rcases hd2 with h' | h' | h' <;>
      simp [h, h']

/-- Membership in the source-order neighbour list is exactly in-bounds
adjacency. -/
theorem mem_nbrs (rows cols r c : Nat) (q : Nat × Nat) :
    q ∈ nbrs rows cols r c ↔ q.1 < rows ∧ q.2 < cols ∧ adjacent r c q := by
  simp only [nbrs, nbrsO, nbrsInt, List.mem_filterMap]
  constructor
  · rintro ⟨d, hd, hg⟩
    rw [mem_offsets] at hd
    split_ifs at hg with hb
    · have hq := Option.some_injective _ hg
      have hq1 : q.1 = ((r : Int) + d.1).toNat := by rw [← hq]
      have hq2 : q.2 = ((c : Int) + d.2).toNat := by rw [← hq]
      have hne : ¬(d.1 = 0 ∧ d.2 = 0) := by
        intro hh
        exact hd.2.2 (Prod.ext_iff.mpr ⟨hh.1, hh.2⟩)
      refine ⟨by omega, by omega, ?_, ?_, ?_⟩
      · omega
      · omega
      · simp only [ne_eq, Prod.ext_iff, not_and]
        intro h1 h2
        omega
  · rintro ⟨h1, h2, ha1, ha2, hane⟩
    have hane' : ¬(q.1 = r ∧ q.2 = c) := by
      intro hh
      exact hane (Prod.ext_iff.mpr ⟨hh.1, hh.2⟩)
    refine ⟨((q.1 : Int) - r, (q.2 : Int) - c), ?_, ?_⟩
    · rw [mem_offsets]
      refine ⟨by omega, by omega, ?_⟩
      simp only [ne_eq, Prod.ext_iff, not_and]
      intro hh1 hh2
      omega
    · rw [if_pos (by constructor <;> omega)]
      simp only [Option.some.injEq, Prod.ext_iff]
      constructor <;> omega

/-- Every member of any offset-generated neighbour list is in bounds. -/
theorem mem_nbrsO_inBounds (ord : List (Int × Int)) (rows cols r c : Nat)
    (q : Nat × Nat) (h : q ∈ nbrsO ord rows cols r c) :
    q.1 < rows ∧ q.2 < cols := by
  simp only [nbrsO, nbrsInt, List.mem_filterMap] at h
  obtain ⟨d, _, hg⟩ := h
  split_ifs at hg with hb
  · have hq := Option.some_injective _ hg
    have hq1 : q.1 = ((r : Int) + d.1).toNat := by rw [← hq]
    have hq2 : q.2 = ((c : Int) + d.2).toNat := by rw [← hq]
    omega

/-- Permuting the offset list does not change the set of neighbours. -/
theorem mem_nbrsO_perm (ord : List (Int × Int)) (hperm : ord.Perm offsets)
    (rows cols r c : Nat) (q : Nat × Nat) :
    q ∈ nbrsO ord rows cols r c ↔ q ∈ nbrs rows cols r c := by
  exact (hperm.filterMap _).mem_iff

/-- `q` lies on the `rows × cols` grid. -/
def inBounds (rows cols : Nat) (q : Nat × Nat) : Prop :=
  q.1 < rows ∧ q.2 < cols

instance (rows cols : Nat) (q : Nat × Nat) : Decidable (inBounds rows cols q) := by
  unfold inBounds
  infer_instance

/-- The count computed by the inner loop of `calculate_neighbor_mines`:
mines among the in-bounds 8-neighbours of `(r, c)`. -/
def neighbor_count (b : GameBoard) (r c : Nat) : Nat :=
  ((nbrs b.rows b.cols r c).filter fun q => (b.grid q.1 q.2).is_mine).length

/-- `GameBoard.calculate_neighbor_mines`: store the neighbour-mine count on
every in-bounds non-mine cell.  (The Python loop writes `neighbor_mines`
while reading only `is_mine`, so reading from the pre-state is faithful.) -/
def calculate_neighbor_mines (b : GameBoard) : GameBoard :=
  { b with grid := fun r c =>
      if r < b.rows ∧ c < b.cols ∧ (b.grid r c).is_mine = false then
        { b.grid r c with neighbor_mines := neighbor_count b r c }
      else b.grid r c }

/-- The `safe_zone` set built in `place_mines`: all in-bounds positions within
Chebyshev distance 1 of the first click, the clicked cell included. -/
def safe_zone (rows cols fr fc : Nat) : Finset (Nat × Nat) :=
  (nbrsInt offsets9 rows cols (fr : Int) (fc : Int)).toFinset

/-- `available_cells = list(set(all_cells) - safe_zone)` as a set. -/
def available_cells (rows cols fr fc : Nat) : Finset (Nat × Nat) :=
  (Finset.range rows ×ˢ Finset.range cols) \ safe_zone rows cols fr fc

/-- The guarantee of `random.sample(available_cells, self.mines)`: distinct
positions, all drawn from `available_cells`, exactly `mines` of them. -/
def SampleOK (b : GameBoard) (fr fc : Nat) (sample : List (Nat × Nat)) : Prop :=
  sample.Nodup ∧ sample.length = b.mines ∧
    ∀ q ∈ sample, q ∈ available_cells b.rows b.cols fr fc

/-- `GameBoard.place_mines(first_click_row, first_click_col)`: mark the
sampled positions as mines, then compute the neighbour counts.  The random
sample is passed explicitly as `mine_positions` (see `SampleOK`). -/
def place_mines (b : GameBoard) (first_click_row first_click_col : Nat)
    (mine_positions : List (Nat × Nat)) : GameBoard :=
  calculate_neighbor_mines
    (mine_positions.foldl (fun acc q => setMine acc q.1 q.2) b)

/-- `GameBoard.reveal_cell`, indexed by fuel; each recursive call spends one
unit.  Running out of fuel leaves the board unchanged, and the development
shows fuel `rows*cols + 1` always suffices.  The neighbour visiting order is
the offset list `ord` (the source uses `offsets`). -/
def revealFuel (ord : List (Int × Int)) :
    Nat → GameBoard → Nat → Nat → GameBoard × Bool
  | 0, b, _, _ => (b, false)
  | fuel + 1, b, row, col =>
    if (b.grid row col).state ≠ CellState.Hidden then (b, false)
    else
      let b1 := setCellState b row col CellState.Revealed
      if (b.grid row col).is_mine then ({ b1 with game_over := true }, true)
      else if (b.grid row col).neighbor_mines = 0 then
        ((nbrsO ord b.rows b.cols row col).foldl
          (fun acc q => (revealFuel ord fuel acc q.1 q.2).1) b1, false)
      else (b1, false)

/-- `reveal_cell` with an arbitrary neighbour visiting order. -/
def reveal_cellOrd (ord : List (Int × Int)) (b : GameBoard) (row col : Nat) :
    GameBoard × Bool :=
  revealFuel ord (b.rows * b.cols + 1) b row col

/-- `GameBoard.reveal_cell(row, col)` for in-bounds coordinates: the new
board and the returned boolean (`True` iff a mine was hit). -/
def reveal_cell (b : GameBoard) (row col : Nat) : GameBoard × Bool :=
  reveal_cellOrd offsets b row col

/-- `GameBoard.toggle_flag(row, col)` for in-bounds coordinates. -/
def toggle_flag (b : GameBoard) (row col : Nat) : GameBoard :=
  if (b.grid row col).state = CellState.Hidden then
    { setCellState b row col CellState.Flagged with
        remaining_mines := b.remaining_mines - 1 }
  else if (b.grid row col).state = CellState.Flagged then
    { setCellState b row col CellState.Hidden with
        remaining_mines := b.remaining_mines + 1 }
  else b

/-- The loop of `GameBoard.check_win` as a boolean: every in-bounds cell is a
mine or is revealed. -/
def allNonMineRevealed (b : GameBoard) : Bool :=
  (List.range b.rows).all fun r =>
    (List.range b.cols).all fun c =>
      (b.grid r c).is_mine || decide ((b.grid r c).state = CellState.Revealed)

/-- `GameBoard.check_win()`: returns whether all non-mine cells are revealed,
setting `game_over` as a side effect exactly when the answer is `True`. -/
def check_win (b : GameBoard) : GameBoard × Bool :=
  if allNonMineRevealed b then ({ b with game_over := true }, true)
  else (b, false)

/-- Board effect of `Minesweeper.left_click(row, col)`: the game-over guard,
lazy mine placement on the first click, the reveal, and the win check (whose
side effect sets `game_over`).  Display updates are outside the core. -/
def left_click (b : GameBoard) (sample : List (Nat × Nat)) (row col : Nat) :
    GameBoard :=
  if b.game_over then b
  else
    let b1 :=
      if b.first_click then
        place_mines { b with first_click := false } row col sample
      else b
    let res := reveal_cell b1 row col
    if res.2 then res.1 else (check_win res.1).1

/-- Board effect of `Minesweeper.right_click(row, col)`: the game-over /
first-click guard, then the flag toggle. -/
def right_click (b : GameBoard) (row col : Nat) : GameBoard :=
  if b.game_over || b.first_click then b else toggle_flag b row col

/-- Python list indexing into a list of length `n`: plain indices in
`[0, n)`, silent wrap-around for `[-n, 0)`, `IndexError` (`none`) otherwise. -/
def pyIdx (n : Nat) (i : Int) : Option Nat :=
  if 0 ≤ i ∧ i < (n : Int) then some i.toNat
  else if -(n : Int) ≤ i ∧ i < 0 then some (i + (n : Int)).toNat
  else none

/-- `GameBoard.toggle_flag` as called with arbitrary integer coordinates:
`self.grid[row][col]` resolves via Python indexing and may raise. -/
def toggle_flagI (b : GameBoard) (row col : Int) : Option GameBoard :=
  match pyIdx b.rows row, pyIdx b.cols col with
  | some r, some c => some (toggle_flag b r c)
  | _, _ => none

/-- `GameBoard.reveal_cell` as called with arbitrary integer coordinates:
the cell is fetched via Python indexing (possibly wrapping), but the cascade
offsets are added to the *original* `row, col`, as in the source.  The
recursive calls are guarded in-bounds, hence modelled by `reveal_cell`. -/
def reveal_cellI (b : GameBoard) (row col : Int) : Option (GameBoard × Bool) :=
  match pyIdx b.rows row, pyIdx b.cols col with
  | some r, some c =>
    if (b.grid r c).state ≠ CellState.Hidden then some (b, false)
    else
      let b1 := setCellState b r c CellState.Revealed
      if (b.grid r c).is_mine then some ({ b1 with game_over := true }, true)
      else if (b.grid r c).neighbor_mines = 0 then
        some ((nbrsInt offsets b.rows b.cols row col).foldl
          (fun acc q => (reveal_cell acc q.1 q.2).1) b1, false)
      else some (b1, false)
  | _, _ => none

/-- In-bounds cells currently `Hidden`. -/
def hiddenSet (b : GameBoard) : Finset (Nat × Nat) :=
  (Finset.range b.rows ×ˢ Finset.range b.cols).filter
    fun q => (b.grid q.1 q.2).state = CellState.Hidden

/-- Number of in-bounds `Hidden` cells: the termination measure of the
cascading reveal. -/
def hiddenCount (b : GameBoard) : Nat :=
  (hiddenSet b).card

/-- In-bounds cells carrying a mine. -/
def mineSet (b : GameBoard) : Finset (Nat × Nat) :=
  (Finset.range b.rows ×ˢ Finset.range b.cols).filter
    fun q => (b.grid q.1 q.2).is_mine = true

/-- The true number of mines among the in-bounds Chebyshev-distance-1
neighbours of `(r, c)` (the cell itself excluded). -/
def mineAdjCount (b : GameBoard) (r c : Nat) : Nat :=
  ((Finset.range b.rows ×ˢ Finset.range b.cols).filter
    fun q => adjacent r c q ∧ (b.grid q.1 q.2).is_mine = true).card

/-- Every in-bounds non-mine cell stores its true neighbour-mine count
(the state produced by `calculate_neighbor_mines`). -/
def countsOK (b : GameBoard) : Prop :=
  ∀ r, r < b.rows → ∀ c, c < b.cols → (b.grid r c).is_mine = false →
    (b.grid r c).neighbor_mines = mineAdjCount b r c

/-- The cascade propagates out of `p`: an in-bounds hidden non-mine cell
whose stored neighbour count is zero. -/
def propag (b : GameBoard) (p : Nat × Nat) : Prop :=
  inBounds b.rows b.cols p ∧ (b.grid p.1 p.2).state = CellState.Hidden ∧
    (b.grid p.1 p.2).is_mine = false ∧ (b.grid p.1 p.2).neighbor_mines = 0

/-- `q` is reachable from the starting cell `s` through a chain of
propagating cells: `s` itself, or one adjacency step out of a reachable
propagating cell.  This is the declarative description of the set the
cascading reveal uncovers. -/
inductive reach (b : GameBoard) (s : Nat × Nat) : Nat × Nat → Prop
  | base : reach b s s
  | step {p q : Nat × Nat} : reach b s p → propag b p →
      inBounds b.rows b.cols q → adjacent p.1 p.2 q → reach b s q

/-- `b'` is `b` with some cells turned from `Hidden` to `Revealed`: the only
kind of change `reveal_cell` makes to the grid. -/
def Evolves (b b' : GameBoard) : Prop :=
  b'.rows = b.rows ∧ b'.cols = b.cols ∧
    ∀ r c, (b'.grid r c).is_mine = (b.grid r c).is_mine ∧
      (b'.grid r c).neighbor_mines = (b.grid r c).neighbor_mines ∧
      ((b'.grid r c).state = (b.grid r c).state ∨
        ((b.grid r c).state = CellState.Hidden ∧
          (b'.grid r c).state = CellState.Revealed))

/-- `b'` is `b` with some `reach b src`-reachable hidden cells revealed. -/
def RevealedFrom (b : GameBoard) (src : Nat × Nat) (b' : GameBoard) : Prop :=
  Evolves b b' ∧
    ∀ r c, (b'.grid r c).state ≠ (b.grid r c).state → reach b src (r, c)

theorem evolves_refl (b : GameBoard) : Evolves b b :=
  ⟨rfl, rfl, fun _ _ => ⟨rfl, rfl, Or.inl rfl⟩⟩

theorem evolves_trans {a b c : GameBoard} (h1 : Evolves a b)
    (h2 : Evolves b c) : Evolves a c := by
  obtain ⟨hr1, hc1, hg1⟩ := h1
  obtain ⟨hr2, hc2, hg2⟩ := h2
  refine ⟨hr2.trans hr1, hc2.trans hc1, fun r c => ?_⟩
  obtain ⟨hm1, hn1, hs1⟩ := hg1 r c
  obtain ⟨hm2, hn2, hs2⟩ := hg2 r c
  refine ⟨hm2.trans hm1, hn2.trans hn1, ?_⟩
  rcases hs1 with hs1 | hs1 <;> rcases hs2 with hs2 | hs2
  · exact Or.inl (hs2.trans hs1)
  · exact Or.inr ⟨hs1 ▸ hs2.1, hs2.2⟩
  · exact Or.inr ⟨hs1.1, hs2 ▸ hs1.2⟩
  · exact Or.inr ⟨hs1.1, hs2.2⟩

theorem setCellState_grid_self (b : GameBoard) (r c : Nat) (s : CellState) :
    (setCellState b r c s).grid r c = { b.grid r c with state := s } := by
  simp [setCellState, updateCell]

theorem setCellState_grid_other (b : GameBoard) (r c : Nat) (s : CellState)
    (r' c' : Nat) (h : ¬(r' = r ∧ c' = c)) :
    (setCellState b r c s).grid r' c' = b.grid r' c' := by
  simp [setCellState, updateCell, h]

theorem evolves_set_reveal (b : GameBoard) (r c : Nat)
    (h : (b.grid r c).state = CellState.Hidden) :
    Evolves b (setCellState b r c CellState.Revealed) := by
  refine ⟨rfl, rfl, fun r' c' => ?_⟩
  by_cases hq : r' = r ∧ c' = c
  · obtain ⟨rfl, rfl⟩ := hq
    rw [setCellState_grid_self]
    exact ⟨rfl, rfl, Or.inr ⟨h, rfl⟩⟩
  · rw [setCellState_grid_other b r c _ r' c' hq]
    exact ⟨rfl, rfl, Or.inl rfl⟩

theorem evolves_game_over {b b' : GameBoard} (h : Evolves b b') :
    Evolves b { b' with game_over := true } :=
  h

theorem evolves_foldl {g : GameBoard → Nat × Nat → GameBoard}
    (hg : ∀ bb q, Evolves bb (g bb q)) :
    ∀ (l : List (Nat × Nat)) (b : GameBoard), Evolves b (l.foldl g b) := by
  intro l
  induction l with
  | nil => intro b; exact evolves_refl b
  | cons p l ih =>
    intro b
    exact evolves_trans (hg b p) (ih (g b p))

theorem evolves_reveal (ord : List (Int × Int)) :
    ∀ (fuel : Nat) (b : GameBoard) (r c : Nat),
      Evolves b (revealFuel ord fuel b r c).1 := by
  intro fuel
  induction fuel with
  | zero => intro b r c; exact evolves_refl b
  | succ f ih =>
    intro b r c
    simp only [revealFuel]
    split_ifs with h1 h2 h3
    · exact evolves_refl b
    · push_neg at h1
      exact evolves_game_over (evolves_set_reveal b r c h1)
    · push_neg at h1
      exact evolves_trans (evolves_set_reveal b r c h1)
        (evolves_foldl (fun bb q => ih bb q.1 q.2) _ _)
    · push_neg at h1
      exact evolves_set_reveal b r c h1

theorem state_revealed_mono {b b' : GameBoard} (hev : Evolves b b')
    (r c : Nat) (h : (b.grid r c).state = CellState.Revealed) :
    (b'.grid r c).state = CellState.Revealed := by
  rcases (hev.2.2 r c).2.2 with hs | hs
  · exact hs.trans h
  · rw [h] at hs
    cases hs.1

theorem state_hidden_back {b b' : GameBoard} (hev : Evolves b b')
    (r c : Nat) (h : (b'.grid r c).state = CellState.Hidden) :
    (b.grid r c).state = CellState.Hidden := by
  rcases (hev.2.2 r c).2.2 with hs | hs
  · exact hs ▸ h
  · rw [h] at hs
    cases hs.2

theorem propag_back {b b' : GameBoard} (hev : Evolves b b')
    {p : Nat × Nat} (h : propag b' p) : propag b p := by
  obtain ⟨hin, hst, hm, hn⟩ := h
  refine ⟨?_, state_hidden_back hev p.1 p.2 hst, ?_, ?_⟩
  · rw [← hev.1, ← hev.2.1]
    exact hin
  · rw [← (hev.2.2 p.1 p.2).1]
    exact hm
  · rw [← (hev.2.2 p.1 p.2).2.1]
    exact hn

theorem reach_of_evolves {b b' : GameBoard} (hev : Evolves b b')
    {p q : Nat × Nat} (h : reach b' p q) : reach b p q := by
  induction h with
  | base => exact reach.base
  | step hr hp hin hadj ih =>
    refine reach.step ih (propag_back hev hp) ?_ hadj
    rw [← hev.1, ← hev.2.1]
    exact hin

theorem reach_trans {b : GameBoard} {s p q : Nat × Nat}
    (h1 : reach b s p) (h2 : reach b p q) : reach b s q := by
  induction h2 with
  | base => exact h1
  | step _ hp hin hadj ih => exact reach.step ih hp hin hadj

theorem reach_eq_of_not_propag {b : GameBoard} {s q : Nat × Nat}
    (hs : ¬ propag b s) (h : reach b s q) : q = s := by
  induction h with
  | base => rfl
  | step hr hp _ _ ih =>
    rw [ih] at hp
    exact absurd hp hs

/-- A cell reached from `s` is either `s` itself or reached, in the board
where `s` has just been revealed, from some in-bounds neighbour of `s`. -/
theorem reach_shift {b : GameBoard} {s q : Nat × Nat} (h : reach b s q) :
    q = s ∨ ∃ p, inBounds b.rows b.cols p ∧ adjacent s.1 s.2 p ∧
      reach (setCellState b s.1 s.2 CellState.Revealed) p q := by
  induction h with
  | base => exact Or.inl rfl
  | step hr hp hin hadj ih =>
    rename_i p q
    by_cases hps : p = s
    · subst hps
      exact Or.inr ⟨q, hin, hadj, reach.base⟩
    · rcases ih with rfl | ⟨p', hin', hadj', hr'⟩
      · exact absurd rfl hps
      · refine Or.inr ⟨p', hin', hadj', reach.step hr' ?_ hin hadj⟩
        obtain ⟨hpin, hpst, hpm, hpn⟩ := hp
        have hne : ¬(p.1 = s.1 ∧ p.2 = s.2) := by
          intro hh
          exact hps (Prod.ext_iff.mpr ⟨hh.1, hh.2⟩)
        refine ⟨hpin, ?_, ?_, ?_⟩ <;>
          rw [setCellState_grid_other b s.1 s.2 _ p.1 p.2 hne] <;>
          assumption

/-- Transfer of reachability across one cascade call: if every cell changed
between `acc` and `acc'` is reachable from `p₀` in `acc`, then a cell
reachable from `p` in `acc` is still reachable from `p` in `acc'`, unless it
is reachable from `p₀` in `acc`. -/
theorem reach_transfer {acc acc' : GameBoard} {p₀ : Nat × Nat}
    (hsound : ∀ r c, (acc'.grid r c).state ≠ (acc.grid r c).state →
      reach acc p₀ (r, c))
    (hev : Evolves acc acc') {p q : Nat × Nat} (h : reach acc p q) :
    reach acc' p q ∨ reach acc p₀ q := by
  induction h with
  | base => exact Or.inl reach.base
  | step hr hp hin hadj ih =>
    rename_i x q
    rcases ih with ih | ih
    · by_cases hst : (acc'.grid x.1 x.2).state = (acc.grid x.1 x.2).state
      · refine Or.inl (reach.step ih ?_ ?_ hadj)
        · obtain ⟨hxin, hxst, hxm, hxn⟩ := hp
          refine ⟨?_, hst.trans hxst, ?_, ?_⟩
          · rw [hev.1, hev.2.1]
            exact hxin
          · rw [(hev.2.2 x.1 x.2).1]
            exact hxm
          · rw [(hev.2.2 x.1 x.2).2.1]
            exact hxn
        · rw [hev.1, hev.2.1]
          exact hin
      · have hx := hsound x.1 x.2 hst
        exact Or.inr (reach.step hx hp hin hadj)
    · exact Or.inr (reach.step ih hp hin hadj)

theorem revealedFrom_refl (b : GameBoard) (src : Nat × Nat) :
    RevealedFrom b src b :=
  ⟨evolves_refl b, fun _ _ h => absurd rfl h⟩

/-- Composing one cascade call onto an accumulated `RevealedFrom`: the call
starts at an in-bounds neighbour `p` of the propagating source `s`. -/
theorem revealedFrom_comp {b acc acc' : GameBoard} {s p : Nat × Nat}
    (hs : propag b s) (hin : inBounds b.rows b.cols p)
    (hadj : adjacent s.1 s.2 p) (h1 : RevealedFrom b s acc)
    (h2 : RevealedFrom acc p acc') : RevealedFrom b s acc' := by
  obtain ⟨hev1, hch1⟩ := h1
  obtain ⟨hev2, hch2⟩ := h2
  refine ⟨evolves_trans hev1 hev2, fun r c hch => ?_⟩
  by_cases hmid : (acc'.grid r c).state = (acc.grid r c).state
  · exact hch1 r c (fun hh => hch (hmid.trans hh))
  · have hreach : reach acc p (r, c) := hch2 r c hmid
    have hreachb : reach b p (r, c) := reach_of_evolves hev1 hreach
    exact reach_trans (reach.step reach.base hs hin hadj) hreachb

theorem mem_hiddenSet {b : GameBoard} {q : Nat × Nat} :
    q ∈ hiddenSet b ↔ q.1 < b.rows ∧ q.2 < b.cols ∧
      (b.grid q.1 q.2).state = CellState.Hidden := by
  simp [hiddenSet, Finset.mem_filter, Finset.mem_product, and_assoc]

theorem hiddenSet_set_reveal (b : GameBoard) (r c : Nat)
    (hr : r < b.rows) (hc : c < b.cols)
    (hh : (b.grid r c).state = CellState.Hidden) :
    hiddenSet (setCellState b r c CellState.Revealed) =
      (hiddenSet b).erase (r, c) := by
  ext q
  rw [Finset.mem_erase, mem_hiddenSet, mem_hiddenSet]
  show _ ∧ _ ∧ ((setCellState b r c CellState.Revealed).grid q.1 q.2).state =
      CellState.Hidden ↔ _
  by_cases hq : q.1 = r ∧ q.2 = c
  · have hqe : q = (r, c) := Prod.ext_iff.mpr ⟨hq.1, hq.2⟩
    subst hqe
    rw [setCellState_grid_self]
    simp
  · rw [setCellState_grid_other b r c _ q.1 q.2 hq]
    have hqe : q ≠ (r, c) := by
      intro hh'
      exact hq ⟨by rw [hh'], by rw [hh']⟩
    simp [hqe, setCellState, updateCell]

theorem hiddenCount_set_reveal_lt (b : GameBoard) (r c : Nat)
    (hr : r < b.rows) (hc : c < b.cols)
    (hh : (b.grid r c).state = CellState.Hidden) :
    hiddenCount (setCellState b r c CellState.Revealed) + 1 = hiddenCount b := by
  have hmem : (r, c) ∈ hiddenSet b := mem_hiddenSet.mpr ⟨hr, hc, hh⟩
  rw [hiddenCount, hiddenCount, hiddenSet_set_reveal b r c hr hc hh,
    Finset.card_erase_of_mem hmem]
  have hpos : 0 < (hiddenSet b).card := Finset.card_pos.mpr ⟨(r, c), hmem⟩
  omega

theorem hiddenSet_subset_of_evolves {b b' : GameBoard} (hev : Evolves b b') :
    hiddenSet b' ⊆ hiddenSet b := by
  intro q hq
  rw [mem_hiddenSet] at hq
  rw [mem_hiddenSet]
  obtain ⟨h1, h2, h3⟩ := hq
  refine ⟨by rw [← hev.1]; exact h1, by rw [← hev.2.1]; exact h2, ?_⟩
  exact state_hidden_back hev q.1 q.2 h3

theorem hiddenCount_le_of_evolves {b b' : GameBoard} (hev : Evolves b b') :
    hiddenCount b' ≤ hiddenCount b :=
  Finset.card_le_card (hiddenSet_subset_of_evolves hev)

theorem hiddenCount_le_total (b : GameBoard) :
    hiddenCount b ≤ b.rows * b.cols := by
  calc hiddenCount b ≤ (Finset.range b.rows ×ˢ Finset.range b.cols).card :=
        Finset.card_filter_le _ _
    _ = b.rows * b.cols := by
        rw [Finset.card_product, Finset.card_range, Finset.card_range]

theorem revealedFrom_set_self (b : GameBoard) (r c : Nat)
    (hh : (b.grid r c).state = CellState.Hidden) :
    RevealedFrom b (r, c) (setCellState b r c CellState.Revealed) := by
  refine ⟨evolves_set_reveal b r c hh, fun r' c' hch => ?_⟩
  by_cases hq : r' = r ∧ c' = c
  · obtain ⟨rfl, rfl⟩ := hq
    exact reach.base
  · rw [setCellState_grid_other b r c _ r' c' hq] at hch
    exact absurd rfl hch

theorem revealedFrom_game_over {b b' : GameBoard} {src : Nat × Nat}
    (h : RevealedFrom b src b') :
    RevealedFrom b src { b' with game_over := true } :=
  h

/-- A property an offset order may satisfy: it generates exactly the
in-bounds adjacent cells (true of `offsets` and of its permutations). -/
def NbrsSpec (ord : List (Int × Int)) : Prop :=
  ∀ rows cols r c (q : Nat × Nat), q ∈ nbrsO ord rows cols r c ↔
    q.1 < rows ∧ q.2 < cols ∧ adjacent r c q

theorem nbrsSpec_offsets : NbrsSpec offsets := by
  intro rows cols r c q
  exact mem_nbrs rows cols r c q

theorem nbrsSpec_of_perm {ord : List (Int × Int)} (h : ord.Perm offsets) :
    NbrsSpec ord := by
  intro rows cols r c q
  rw [mem_nbrsO_perm ord h]
  exact mem_nbrs rows cols r c q

/-- Soundness of the cascade: a call of `reveal_cell` on an in-bounds cell
only turns `Hidden` cells that are `reach`-able from the clicked cell into
`Revealed` ones. -/
theorem reveal_sound (ord : List (Int × Int)) (hord : NbrsSpec ord) :
    ∀ (fuel : Nat) (b : GameBoard) (r c : Nat), r < b.rows → c < b.cols →
      RevealedFrom b (r, c) (revealFuel ord fuel b r c).1 := by
  intro fuel
  induction fuel with
  | zero => intro b r c _ _; exact revealedFrom_refl b (r, c)
  | succ f ihf =>
    intro b r c hr hc
    simp only [revealFuel]
    split_ifs with h1 h2 h3
    · exact revealedFrom_refl b (r, c)
    · push_neg at h1
      exact revealedFrom_game_over (revealedFrom_set_self b r c h1)
    · push_neg at h1
      have hprop : propag b (r, c) := ⟨⟨hr, hc⟩, h1, by
        simpa using h2, h3⟩
      have hfold : ∀ (l : List (Nat × Nat)),
          (∀ q ∈ l, inBounds b.rows b.cols q ∧ adjacent r c q) →
          ∀ acc, RevealedFrom b (r, c) acc →
          RevealedFrom b (r, c)
            (l.foldl (fun acc q => (revealFuel ord f acc q.1 q.2).1) acc) := by
        intro l
        induction l with
        | nil => intro _ acc hacc; exact hacc
        | cons p l ihl =>
          intro hmem acc hacc
          have hp := hmem p (List.mem_cons_self p l)
          have hcall : RevealedFrom acc p (revealFuel ord f acc p.1 p.2).1 := by
            refine ihf acc p.1 p.2 ?_ ?_
            · rw [hacc.1.1]
              exact hp.1.1
            · rw [hacc.1.2.1]
              exact hp.1.2
          refine ihl (fun q hq => hmem q (List.mem_cons_of_mem p hq)) _ ?_
          exact revealedFrom_comp hprop hp.1 hp.2 hacc hcall
      refine hfold _ (fun q hq => ?_) _ (revealedFrom_set_self b r c h1)
      have hq' := (hord b.rows b.cols r c q).mp hq
      exact ⟨⟨hq'.1, hq'.2.1⟩, hq'.2.2⟩
    · push_neg at h1
      exact revealedFrom_set_self b r c h1

/-- Completeness of the cascade: with sufficient fuel, every `reach`-able
cell that is `Hidden` before the call of `reveal_cell` is `Revealed` after
it, whatever order the neighbours are visited in. -/
theorem reveal_complete (ord : List (Int × Int)) (hord : NbrsSpec ord) :
    ∀ (n : Nat) (b : GameBoard) (fuel r c : Nat),
      hiddenCount b ≤ n → hiddenCount b < fuel → r < b.rows → c < b.cols →
      ∀ q : Nat × Nat, reach b (r, c) q →
        (b.grid q.1 q.2).state = CellState.Hidden →
        (((revealFuel ord fuel b r c).1).grid q.1 q.2).state =
          CellState.Revealed := by
  intro n
  induction n using Nat.strong_induction_on with
  | _ n IH =>
  intro b fuel r c hn hf hr hc q hreach hqhid
  obtain ⟨f, rfl⟩ : ∃ f, fuel = f + 1 := ⟨fuel - 1, by omega⟩
  simp only [revealFuel]
  split_ifs with h1 h2 h3
  · exfalso
    have hnp : ¬ propag b (r, c) := fun hp => h1 hp.2.1
    have hq := reach_eq_of_not_propag hnp hreach
    rw [hq] at hqhid
    exact h1 hqhid
  · push_neg at h1
    have hnp : ¬ propag b (r, c) := by
      intro hp
      simp [hp.2.2.1] at h2
    have hq := reach_eq_of_not_propag hnp hreach
    subst hq
    show ((setCellState b r c CellState.Revealed).grid r c).state =
      CellState.Revealed
    rw [setCellState_grid_self]
  · push_neg at h1
    have hm : (b.grid r c).is_mine = false := by simpa using h2
    have hprop : propag b (r, c) := ⟨⟨hr, hc⟩, h1, hm, h3⟩
    have hcnt1 : hiddenCount (setCellState b r c CellState.Revealed) + 1 =
        hiddenCount b := hiddenCount_set_reveal_lt b r c hr hc h1
    have hfold : ∀ (l : List (Nat × Nat)),
        (∀ p ∈ l, inBounds b.rows b.cols p ∧ adjacent r c p) →
        ∀ acc, RevealedFrom b (r, c) acc → hiddenCount acc < hiddenCount b →
        (∀ x : Nat × Nat, reach b (r, c) x →
          (b.grid x.1 x.2).state = CellState.Hidden →
          (acc.grid x.1 x.2).state = CellState.Revealed ∨
            ∃ p ∈ l, reach acc p x) →
        ∀ x : Nat × Nat, reach b (r, c) x →
          (b.grid x.1 x.2).state = CellState.Hidden →
          ((l.foldl (fun acc q => (revealFuel ord f acc q.1 q.2).1) acc).grid
            x.1 x.2).state = CellState.Revealed := by
      intro l
      induction l with
      | nil =>
        intro _ acc _ _ hinv x hx hxh
        rcases hinv x hx hxh with h | ⟨p, hp, _⟩
        · exact h
        · exact absurd hp (List.not_mem_nil p)
      | cons p l ihl =>
        intro hmem acc hacc hacccnt hinv x hx hxh
        have hp := hmem p (List.mem_cons_self p l)
        have hpin1 : p.1 < acc.rows := by
          rw [hacc.1.1]
          exact hp.1.1
        have hpin2 : p.2 < acc.cols := by
          rw [hacc.1.2.1]
          exact hp.1.2
        have hsound_call : RevealedFrom acc p (revealFuel ord f acc p.1 p.2).1 :=
          reveal_sound ord hord f acc p.1 p.2 hpin1 hpin2
        have hcomp_call : ∀ y : Nat × Nat, reach acc p y →
            (acc.grid y.1 y.2).state = CellState.Hidden →
            (((revealFuel ord f acc p.1 p.2).1).grid y.1 y.2).state =
              CellState.Revealed := by
          intro y hy hyh
          exact IH (hiddenCount acc) (lt_of_lt_of_le hacccnt hn) acc f p.1 p.2
            le_rfl (by omega) hpin1 hpin2 y hy hyh
        refine ihl (fun q hq => hmem q (List.mem_cons_of_mem p hq))
          (revealFuel ord f acc p.1 p.2).1
          (revealedFrom_comp hprop hp.1 hp.2 hacc hsound_call)
          (lt_of_le_of_lt (hiddenCount_le_of_evolves hsound_call.1) hacccnt)
          ?_ x hx hxh
        intro y hy hyh
        have hdone : reach acc p y →
            (((revealFuel ord f acc p.1 p.2).1).grid y.1 y.2).state =
              CellState.Revealed := by
          intro hpy
          by_cases hyacc : (acc.grid y.1 y.2).state = CellState.Hidden
          · exact hcomp_call y hpy hyacc
          · rcases (hacc.1.2.2 y.1 y.2).2.2 with hs | hs
            · exact absurd (hs.trans hyh) hyacc
            · exact state_revealed_mono hsound_call.1 y.1 y.2 hs.2
        rcases hinv y hy hyh with hrev | ⟨p', hp'mem, hp'r⟩
        · exact Or.inl (state_revealed_mono hsound_call.1 y.1 y.2 hrev)
        · rcases List.mem_cons.mp hp'mem with rfl | hp'in
          · exact Or.inl (hdone hp'r)
          · rcases reach_transfer (fun rr cc hch => hsound_call.2 rr cc hch)
              hsound_call.1 hp'r with h | h
            · exact Or.inr ⟨p', hp'in, h⟩
            · exact Or.inl (hdone h)
    refine hfold (nbrsO ord b.rows b.cols r c) (fun p hp => ?_)
      (setCellState b r c CellState.Revealed)
      (revealedFrom_set_self b r c h1) (by omega) ?_ q hreach hqhid
    · have hp' := (hord b.rows b.cols r c p).mp hp
      exact ⟨⟨hp'.1, hp'.2.1⟩, hp'.2.2⟩
    · intro x hx hxh
      rcases reach_shift hx with rfl | ⟨p, hpin, hpadj, hpr⟩
      · left
        show ((setCellState b r c CellState.Revealed).grid r c).state =
          CellState.Revealed
        rw [setCellState_grid_self]
      · right
        exact ⟨p, (hord b.rows b.cols r c p).mpr ⟨hpin.1, hpin.2, hpadj⟩, hpr⟩
  · push_neg at h1
    have hnp : ¬ propag b (r, c) := fun hp => h3 hp.2.2.2
    have hq := reach_eq_of_not_propag hnp hreach
    subst hq
    show ((setCellState b r c CellState.Revealed).grid r c).state =
      CellState.Revealed
    rw [setCellState_grid_self]

/-- Fuel irrelevance: any two fuel amounts strictly above the number of
hidden cells give the same result, so the fuelled recursion has stabilised —
the Python recursion terminates — once the fuel exceeds `hiddenCount`. -/
theorem reveal_fuel_eq (ord : List (Int × Int)) :
    ∀ (n : Nat) (b : GameBoard) (f₁ f₂ r c : Nat),
      hiddenCount b ≤ n → hiddenCount b < f₁ → hiddenCount b < f₂ →
      r < b.rows → c < b.cols →
      revealFuel ord f₁ b r c = revealFuel ord f₂ b r c := by
  intro n
  induction n using Nat.strong_induction_on with
  | _ n IH =>
  intro b f₁ f₂ r c hn h1 h2 hr hc
  obtain ⟨g₁, rfl⟩ : ∃ g, f₁ = g + 1 := ⟨f₁ - 1, by omega⟩
  obtain ⟨g₂, rfl⟩ : ∃ g, f₂ = g + 1 := ⟨f₂ - 1, by omega⟩
  simp only [revealFuel]
  split_ifs with hh hm hz
  · rfl
  · rfl
  · push_neg at hh
    have hcnt1 := hiddenCount_set_reveal_lt b r c hr hc hh
    have hfold : ∀ (l : List (Nat × Nat)),
        (∀ p ∈ l, p.1 < b.rows ∧ p.2 < b.cols) →
        ∀ acc, Evolves b acc → hiddenCount acc < hiddenCount b →
        l.foldl (fun acc q => (revealFuel ord g₁ acc q.1 q.2).1) acc =
          l.foldl (fun acc q => (revealFuel ord g₂ acc q.1 q.2).1) acc := by
      intro l
      induction l with
      | nil => intro _ acc _ _; rfl
      | cons p l ihl =>
        intro hmem acc hev hcnt
        have hp := hmem p (List.mem_cons_self p l)
        have hpin1 : p.1 < acc.rows := by
          rw [hev.1]
          exact hp.1
        have hpin2 : p.2 < acc.cols := by
          rw [hev.2.1]
          exact hp.2
        have hcall : revealFuel ord g₁ acc p.1 p.2 =
            revealFuel ord g₂ acc p.1 p.2 :=
          IH (hiddenCount acc) (lt_of_lt_of_le hcnt hn) acc g₁ g₂ p.1 p.2
            le_rfl (by omega) (by omega) hpin1 hpin2
        simp only [List.foldl_cons]
        rw [hcall]
        exact ihl (fun q hq => hmem q (List.mem_cons_of_mem p hq)) _
          (evolves_trans hev (evolves_reveal ord g₂ acc p.1 p.2))
          (lt_of_le_of_lt
            (hiddenCount_le_of_evolves (evolves_reveal ord g₂ acc p.1 p.2))
            hcnt)
    have heq := hfold (nbrsO ord b.rows b.cols r c)
      (fun p hp => mem_nbrsO_inBounds ord b.rows b.cols r c p hp)
      (setCellState b r c CellState.Revealed)
      (evolves_set_reveal b r c hh) (by omega)
    rw [heq]
  · rfl

theorem setMine_grid_self (b : GameBoard) (r c : Nat) :
    (setMine b r c).grid r c = { b.grid r c with is_mine := true } := by
  simp [setMine, updateCell]

theorem setMine_grid_other (b : GameBoard) (r c r' c' : Nat)
    (h : ¬(r' = r ∧ c' = c)) :
    (setMine b r c).grid r' c' = b.grid r' c' := by
  simp [setMine, updateCell, h]

theorem foldl_setMine_is_mine (l : List (Nat × Nat)) :
    ∀ (b : GameBoard) (q1 q2 : Nat),
      ((l.foldl (fun acc q => setMine acc q.1 q.2) b).grid q1 q2).is_mine =
          true ↔
        (q1, q2) ∈ l ∨ (b.grid q1 q2).is_mine = true := by
  induction l with
  | nil =>
    intro b q1 q2
    simp
  | cons p l ih =>
    intro b q1 q2
    simp only [List.foldl_cons, List.mem_cons]
    rw [ih]
    by_cases hq : q1 = p.1 ∧ q2 = p.2
    · have hqe : (q1, q2) = p := Prod.ext_iff.mpr hq
      obtain ⟨rfl, rfl⟩ := hq
      rw [setMine_grid_self]
      simp [hqe]
    · rw [setMine_grid_other b p.1 p.2 q1 q2 hq]
      have hqe : (q1, q2) ≠ p := by
        intro hh
        exact hq (Prod.ext_iff.mp hh)
      simp [hqe]

theorem calc_rows (b : GameBoard) : (calculate_neighbor_mines b).rows = b.rows :=
  rfl

theorem calc_cols (b : GameBoard) : (calculate_neighbor_mines b).cols = b.cols :=
  rfl

theorem foldl_setMine_rows (l : List (Nat × Nat)) :
    ∀ b : GameBoard,
      (l.foldl (fun acc q => setMine acc q.1 q.2) b).rows = b.rows := by
  induction l with
  | nil => intro b; rfl
  | cons p l ih => intro b; exact ih (setMine b p.1 p.2)

theorem foldl_setMine_cols (l : List (Nat × Nat)) :
    ∀ b : GameBoard,
      (l.foldl (fun acc q => setMine acc q.1 q.2) b).cols = b.cols := by
  induction l with
  | nil => intro b; rfl
  | cons p l ih => intro b; exact ih (setMine b p.1 p.2)

theorem place_mines_rows (b : GameBoard) (fr fc : Nat)
    (sample : List (Nat × Nat)) : (place_mines b fr fc sample).rows = b.rows :=
  foldl_setMine_rows sample b

theorem place_mines_cols (b : GameBoard) (fr fc : Nat)
    (sample : List (Nat × Nat)) : (place_mines b fr fc sample).cols = b.cols :=
  foldl_setMine_cols sample b

theorem calc_grid_is_mine (b : GameBoard) (r c : Nat) :
    ((calculate_neighbor_mines b).grid r c).is_mine = (b.grid r c).is_mine := by
  show (if _ then _ else _ : Cell).is_mine = _
  split_ifs <;> rfl

theorem place_mines_is_mine (b : GameBoard) (fr fc : Nat)
    (sample : List (Nat × Nat)) (q1 q2 : Nat) :
    ((place_mines b fr fc sample).grid q1 q2).is_mine = true ↔
      (q1, q2) ∈ sample ∨ (b.grid q1 q2).is_mine = true := by
  rw [place_mines, calc_grid_is_mine, foldl_setMine_is_mine]

/-- Membership in the safety zone: in-bounds and within Chebyshev distance 1
of the first click (centre included). -/
theorem mem_safe_zone (rows cols fr fc : Nat) (q : Nat × Nat) :
    q ∈ safe_zone rows cols fr fc ↔
      q.1 < rows ∧ q.2 < cols ∧ ((q.1 : Int) - (fr : Int)).natAbs ≤ 1 ∧
        ((q.2 : Int) - (fc : Int)).natAbs ≤ 1 := by
  rw [safe_zone, List.mem_toFinset]
  simp only [nbrsInt, List.mem_filterMap]
  constructor
  · rintro ⟨d, hd, hg⟩
    rw [mem_offsets9] at hd
    split_ifs at hg with hb
    · have hq := Option.some_injective _ hg
      have hq1 : q.1 = ((fr : Int) + d.1).toNat := by rw [← hq]
      have hq2 : q.2 = ((fc : Int) + d.2).toNat := by rw [← hq]
      refine ⟨by omega, by omega, by omega, by omega⟩
  · rintro ⟨h1, h2, h3, h4⟩
    refine ⟨((q.1 : Int) - fr, (q.2 : Int) - fc), ?_, ?_⟩
    · rw [mem_offsets9]
      exact ⟨by omega, by omega⟩
    · rw [if_pos (by constructor <;> omega)]
      simp only [Option.some.injEq, Prod.ext_iff]
      constructor <;> omega

/-- C1.  For every fresh board and every in-bounds first click, after mine
placement (with any sample satisfying `random.sample`'s guarantee) the
clicked cell and all of its in-bounds Chebyshev-distance-1 neighbours are
not mines: first-move safety. -/
theorem first_move_safety (rows cols mines fr fc : Nat)
    (sample : List (Nat × Nat)) (hfr : fr < rows) (hfc : fc < cols)
    (hok : SampleOK (initBoard rows cols mines) fr fc sample) :
    ∀ q1 q2 : Nat, q1 < rows → q2 < cols →
      ((q1 : Int) - (fr : Int)).natAbs ≤ 1 →
      ((q2 : Int) - (fc : Int)).natAbs ≤ 1 →
      ((place_mines (initBoard rows cols mines) fr fc sample).grid q1
        q2).is_mine = false := by
  intro q1 q2 h1 h2 h3 h4
  have hmem : (q1, q2) ∈ safe_zone rows cols fr fc :=
    (mem_safe_zone rows cols fr fc (q1, q2)).mpr ⟨h1, h2, h3, h4⟩
  have hnot : ¬ ((place_mines (initBoard rows cols mines) fr fc sample).grid
      q1 q2).is_mine = true := by
    rw [place_mines_is_mine]
    rintro (hin | hin)
    · have hav := hok.2.2 _ hin
      rw [available_cells, Finset.mem_sdiff] at hav
      exact hav.2 hmem
    · simp [initBoard] at hin
  simpa using hnot

/-- C2.  With a valid configuration and any admissible sample, exactly
`mines` cells carry a mine after placement, and none of them lies in the
safety zone. -/
theorem mines_placed_exactly (rows cols mines fr fc : Nat)
    (sample : List (Nat × Nat)) (hfr : fr < rows) (hfc : fc < cols)
    (hroom : mines ≤ (available_cells rows cols fr fc).card)
    (hok : SampleOK (initBoard rows cols mines) fr fc sample) :
    (mineSet (place_mines (initBoard rows cols mines) fr fc sample)).card =
        mines ∧
      ∀ q ∈ mineSet (place_mines (initBoard rows cols mines) fr fc sample),
        q ∉ safe_zone rows cols fr fc := by
  have hset : mineSet (place_mines (initBoard rows cols mines) fr fc sample) =
      sample.toFinset := by
    ext q
    simp only [mineSet, Finset.mem_filter, Finset.mem_product,
      Finset.mem_range, List.mem_toFinset, place_mines_rows, place_mines_cols]
    constructor
    · rintro ⟨_, hm⟩
      rw [place_mines_is_mine] at hm
      rcases hm with hm | hm
      · rw [Prod.mk.eta] at hm
        exact hm
      · simp [initBoard] at hm
    · intro hq
      have hav := hok.2.2 _ hq
      rw [available_cells, Finset.mem_sdiff, Finset.mem_product,
        Finset.mem_range, Finset.mem_range] at hav
      refine ⟨⟨hav.1.1, hav.1.2⟩, ?_⟩
      rw [place_mines_is_mine, Prod.mk.eta]
      exact Or.inl hq
  rw [hset]
  refine ⟨?_, ?_⟩
  · rw [List.toFinset_card_of_nodup hok.1]
    exact hok.2.1
  · intro q hq
    rw [List.mem_toFinset] at hq
    have hav := hok.2.2 _ hq
    rw [available_cells, Finset.mem_sdiff] at hav
    exact hav.2

theorem nodup_offsets : offsets.Nodup := by
  decide

theorem nbrs_nodup (rows cols r c : Nat) : (nbrs rows cols r c).Nodup := by
  refine List.Nodup.filterMap ?_ nodup_offsets
  intro d d' q hq hq'
  simp only [Option.mem_def] at hq hq'
  split_ifs at hq with hb
  split_ifs at hq' with hb'
  have h1 := Option.some_injective _ hq
  have h2 := Option.some_injective _ hq'
  rw [Prod.ext_iff] at h1 h2 ⊢
  constructor <;> omega

theorem neighbor_count_eq (b : GameBoard) (r c : Nat) :
    neighbor_count b r c = mineAdjCount b r c := by
  rw [neighbor_count, mineAdjCount]
  have hnd : ((nbrs b.rows b.cols r c).filter
      fun q => (b.grid q.1 q.2).is_mine).Nodup :=
    (nbrs_nodup b.rows b.cols r c).filter _
  rw [← List.toFinset_card_of_nodup hnd]
  congr 1
  ext q
  simp only [List.mem_toFinset, List.mem_filter, Finset.mem_filter,
    Finset.mem_product, Finset.mem_range, mem_nbrs]
  tauto

theorem neighbor_count_le (b : GameBoard) (r c : Nat) :
    neighbor_count b r c ≤ 8 := by
  rw [neighbor_count]
  calc ((nbrs b.rows b.cols r c).filter
        fun q => (b.grid q.1 q.2).is_mine).length
      ≤ (nbrs b.rows b.cols r c).length := List.length_filter_le _ _
    _ ≤ offsets.length := by
        rw [nbrs, nbrsO, nbrsInt]
        exact List.length_filterMap_le _ _
    _ = 8 := rfl

theorem mineAdjCount_calc (b : GameBoard) (r c : Nat) :
    mineAdjCount (calculate_neighbor_mines b) r c = mineAdjCount b r c := by
  rw [mineAdjCount, mineAdjCount, calc_rows, calc_cols]
  congr 1
  ext q
  simp only [Finset.mem_filter, Finset.mem_product, Finset.mem_range,
    calc_grid_is_mine]

/-- C3.  After `calculate_neighbor_mines`, every in-bounds non-mine cell
stores exactly the number of mines among its in-bounds Chebyshev-distance-1
neighbours, a number between 0 and 8. -/
theorem neighbor_counts_correct (b : GameBoard) (r c : Nat)
    (hr : r < b.rows) (hc : c < b.cols)
    (hm : (b.grid r c).is_mine = false) :
    ((calculate_neighbor_mines b).grid r c).neighbor_mines =
        mineAdjCount (calculate_neighbor_mines b) r c ∧
      ((calculate_neighbor_mines b).grid r c).neighbor_mines ≤ 8 := by
  have hcell : (calculate_neighbor_mines b).grid r c =
      { b.grid r c with neighbor_mines := neighbor_count b r c } := by
    show (if _ then _ else _ : Cell) = _
    rw [if_pos ⟨hr, hc, hm⟩]
  rw [hcell, mineAdjCount_calc]
  exact ⟨neighbor_count_eq b r c, neighbor_count_le b r c⟩

/-- C4.  On a board with mines placed and correct neighbour counts, revealing
an in-bounds hidden zero-count non-mine cell reveals exactly the cells
`reach`-able from it that were hidden, leaves every other cell's state
unchanged, and the outcome is the same for every neighbour visiting order:
the flood fill is confluent. -/
theorem flood_fill_confluent (b : GameBoard) (s : Nat × Nat)
    (hr : s.1 < b.rows) (hc : s.2 < b.cols)
    (hh : (b.grid s.1 s.2).state = CellState.Hidden)
    (hm : (b.grid s.1 s.2).is_mine = false)
    (hz : (b.grid s.1 s.2).neighbor_mines = 0)
    (hcounts : countsOK b) :
    ∀ ord : List (Int × Int), ord.Perm offsets → ∀ q : Nat × Nat,
      ((reach b s q ∧ (b.grid q.1 q.2).state = CellState.Hidden) →
        (((reveal_cellOrd ord b s.1 s.2).1).grid q.1 q.2).state =
          CellState.Revealed) ∧
      (¬(reach b s q ∧ (b.grid q.1 q.2).state = CellState.Hidden) →
        (((reveal_cellOrd ord b s.1 s.2).1).grid q.1 q.2).state =
          (b.grid q.1 q.2).state) ∧
      (((reveal_cellOrd ord b s.1 s.2).1).grid q.1 q.2).state =
        (((reveal_cell b s.1 s.2).1).grid q.1 q.2).state := by
  intro ord hperm q
  have hchar : ∀ ord' : List (Int × Int), NbrsSpec ord' →
      ((reach b s q ∧ (b.grid q.1 q.2).state = CellState.Hidden) →
        (((reveal_cellOrd ord' b s.1 s.2).1).grid q.1 q.2).state =
          CellState.Revealed) ∧
      (¬(reach b s q ∧ (b.grid q.1 q.2).state = CellState.Hidden) →
        (((reveal_cellOrd ord' b s.1 s.2).1).grid q.1 q.2).state =
          (b.grid q.1 q.2).state) := by
    intro ord' hord'
    constructor
    · rintro ⟨hreach, hhid⟩
      exact reveal_complete ord' hord' (hiddenCount b) b
        (b.rows * b.cols + 1) s.1 s.2 le_rfl
        (by have := hiddenCount_le_total b; omega) hr hc q hreach hhid
    · intro hnot
      by_contra hne
      have hsound := reveal_sound ord' hord' (b.rows * b.cols + 1) b s.1 s.2
        hr hc
      have hreach := hsound.2 q.1 q.2 hne
      rcases (hsound.1.2.2 q.1 q.2).2.2 with hs | hs
      · exact hne hs
      · exact hnot ⟨hreach, hs.1⟩
  obtain ⟨hA, hB⟩ := hchar ord (nbrsSpec_of_perm hperm)
  obtain ⟨hA0, hB0⟩ := hchar offsets nbrsSpec_offsets
  refine ⟨hA, hB, ?_⟩
  by_cases hq : reach b s q ∧ (b.grid q.1 q.2).state = CellState.Hidden
  · rw [hA hq, reveal_cell, hA0 hq]
  · rw [hB hq, reveal_cell, hB0 hq]

/-- C10.  The cascading reveal terminates: any fuel beyond `rows*cols`
(which bounds the number of hidden cells) gives the stabilised result
`reveal_cell`, and an effective reveal strictly decreases the number of
hidden cells. -/
theorem reveal_terminates (b : GameBoard) (r c fuel : Nat)
    (hr : r < b.rows) (hc : c < b.cols) (hf : b.rows * b.cols < fuel) :
    revealFuel offsets fuel b r c = reveal_cell b r c ∧
      hiddenCount b ≤ b.rows * b.cols ∧
      ((b.grid r c).state = CellState.Hidden →
        hiddenCount (reveal_cell b r c).1 < hiddenCount b) := by
  have htot := hiddenCount_le_total b
  refine ⟨?_, htot, ?_⟩
  · exact reveal_fuel_eq offsets (hiddenCount b) b fuel (b.rows * b.cols + 1)
      r c le_rfl (by omega) (by omega) hr hc
  · intro hh
    have hcnt1 := hiddenCount_set_reveal_lt b r c hr hc hh
    rw [reveal_cell, reveal_cellOrd]
    simp only [revealFuel]
    rw [if_neg (by simp [hh])]
    split_ifs with hm hz
    · show hiddenCount (setCellState b r c CellState.Revealed) < hiddenCount b
      omega
    · have hev : Evolves (setCellState b r c CellState.Revealed)
          ((nbrsO offsets b.rows b.cols r c).foldl
            (fun acc q =>
              (revealFuel offsets (b.rows * b.cols) acc q.1 q.2).1)
            (setCellState b r c CellState.Revealed)) :=
        evolves_foldl
          (fun bb q => evolves_reveal offsets (b.rows * b.cols) bb q.1 q.2) _ _
      exact lt_of_le_of_lt (hiddenCount_le_of_evolves hev) (by omega)
    · show hiddenCount (setCellState b r c CellState.Revealed) < hiddenCount b
      omega

/-- C7.  Revealing an in-bounds hidden mine reveals just that cell, sets
`game_over` and returns `True`; revealing a non-hidden cell is a no-op
returning `False`. -/
theorem reveal_mine_and_noop (b : GameBoard) (r c : Nat)
    (hr : r < b.rows) (hc : c < b.cols) :
    ((b.grid r c).state = CellState.Hidden → (b.grid r c).is_mine = true →
      (reveal_cell b r c).2 = true ∧
      (reveal_cell b r c).1.game_over = true ∧
      ((reveal_cell b r c).1.grid r c).state = CellState.Revealed ∧
      (∀ r' c' : Nat, ¬(r' = r ∧ c' = c) →
        (reveal_cell b r c).1.grid r' c' = b.grid r' c') ∧
      (reveal_cell b r c).1.remaining_mines = b.remaining_mines ∧
      (reveal_cell b r c).1.first_click = b.first_click) ∧
    ((b.grid r c).state ≠ CellState.Hidden → reveal_cell b r c = (b, false)) := by
  constructor
  · intro hh hm
    have hstep : reveal_cell b r c =
        ({ setCellState b r c CellState.Revealed with game_over := true },
          true) := by
      rw [reveal_cell, reveal_cellOrd]
      simp only [revealFuel]
      rw [if_neg (by simp [hh]), if_pos hm]
    rw [hstep]
    refine ⟨rfl, rfl, ?_, ?_, rfl, rfl⟩
    · show ((setCellState b r c CellState.Revealed).grid r c).state =
        CellState.Revealed
      rw [setCellState_grid_self]
    · intro r' c' hq
      show (setCellState b r c CellState.Revealed).grid r' c' = b.grid r' c'
      exact setCellState_grid_other b r c _ r' c' hq
  · intro hh
    rw [reveal_cell, reveal_cellOrd]
    simp only [revealFuel]
    rw [if_pos hh]

theorem allNonMineRevealed_iff (b : GameBoard) :
    allNonMineRevealed b = true ↔
      ∀ r, r < b.rows → ∀ c, c < b.cols → (b.grid r c).is_mine = false →
        (b.grid r c).state = CellState.Revealed := by
  simp only [allNonMineRevealed, List.all_eq_true, List.mem_range,
    Bool.or_eq_true, decide_eq_true_eq]
  constructor
  · intro h r hr c hc hm
    rcases h r hr c hc with h' | h'
    · rw [hm] at h'
      cases h'
    · exact h'
  · intro h r hr c hc
    by_cases hm : (b.grid r c).is_mine = true
    · exact Or.inl hm
    · exact Or.inr (h r hr c hc (by simpa using hm))

/-- C6.  `check_win` returns `True` exactly when every in-bounds non-mine
cell is revealed; on `True` its only effect is setting `game_over`, and on
`False` the board is unchanged. -/
theorem check_win_correct (b : GameBoard) :
    ((check_win b).2 = true ↔
      ∀ r, r < b.rows → ∀ c, c < b.cols → (b.grid r c).is_mine = false →
        (b.grid r c).state = CellState.Revealed) ∧
    ((check_win b).2 = true → (check_win b).1 = { b with game_over := true }) ∧
    ((check_win b).2 = false → (check_win b).1 = b) := by
  by_cases h : allNonMineRevealed b = true
  · rw [check_win, if_pos h]
    refine ⟨⟨fun _ => (allNonMineRevealed_iff b).mp h, fun _ => rfl⟩,
      fun _ => rfl, fun hf => ?_⟩
    cases hf
  · rw [check_win, if_neg h]
    refine ⟨⟨fun hf => ?_, fun hall => ?_⟩, fun hf => ?_, fun _ => rfl⟩
    · cases hf
    · exact absurd ((allNonMineRevealed_iff b).mpr hall) h
    · cases hf

/-- C8 counterexample.  `GameBoard.__init__` performs no validation: with
`mines = 0` (outside the specified range `[1, rows*cols - 9]`) a fully
formed board object is still created. -/
theorem init_no_validation_counterexample :
    (initBoard 9 9 0).rows = 9 ∧ (initBoard 9 9 0).cols = 9 ∧
      (initBoard 9 9 0).mines = 0 ∧ ¬ 1 ≤ (initBoard 9 9 0).mines ∧
      (initBoard 9 9 0).game_over = false ∧
      (initBoard 9 9 0).first_click = true := by
  refine ⟨rfl, rfl, rfl, by decide, rfl, rfl⟩

/-- C8 (amended).  Board construction never fails: `GameBoard.__init__`
accepts any `rows`, `cols`, `mines` and always produces a fresh board with
those fields, an all-hidden mine-free grid, and the game not over. -/
theorem init_unvalidated (rows cols mines : Nat) :
    (initBoard rows cols mines).rows = rows ∧
      (initBoard rows cols mines).cols = cols ∧
      (initBoard rows cols mines).mines = mines ∧
      (initBoard rows cols mines).game_over = false ∧
      (initBoard rows cols mines).first_click = true ∧
      (initBoard rows cols mines).remaining_mines = (mines : Int) ∧
      ∀ r c : Nat, (initBoard rows cols mines).grid r c =
        { row := r, col := c, is_mine := false, state := CellState.Hidden,
          neighbor_mines := 0 } :=
  ⟨rfl, rfl, rfl, rfl, rfl, rfl, fun _ _ => rfl⟩

/-- A 3×3 game played to the winning terminal state: mine at `(2, 2)`,
first click at `(0, 0)` cascades over all non-mine cells, so `check_win`
fires and sets `game_over`; the mine cell itself stays `Hidden`. -/
def wonBoard : GameBoard := left_click (initBoard 3 3 1) [(2, 2)] 0 0

/-- C5 counterexample.  On the terminal (`Won`) board, calling the
`GameBoard.toggle_flag` method directly is *not* a no-op: it has no
`game_over` guard, so it flags the hidden cell `(2, 2)` and decrements
`remaining_mines`. -/
theorem terminal_absorption_counterexample :
    wonBoard.game_over = true ∧
      (wonBoard.grid 2 2).state = CellState.Hidden ∧
      ((toggle_flag wonBoard 2 2).grid 2 2).state = CellState.Flagged ∧
      ¬ (toggle_flag wonBoard 2 2).remaining_mines = wonBoard.remaining_mines ∧
      ((reveal_cell wonBoard 2 2).1.grid 2 2).state = CellState.Revealed := by
  decide

/-- C5 (amended).  The game-over guard lives in the click handlers, not in
the `GameBoard` methods: once `game_over` holds, `left_click` and
`right_click` leave the board unchanged (while direct `reveal_cell` /
`toggle_flag` calls still mutate it, see the counterexample). -/
theorem terminal_absorption_handlers (b : GameBoard)
    (sample : List (Nat × Nat)) (row col : Nat) (h : b.game_over = true) :
    left_click b sample row col = b ∧ right_click b row col = b := by
  constructor
  · rw [left_click, if_pos h]
  · rw [right_click, if_pos (by rw [h]; rfl)]

theorem pyIdx_eq_none_iff (n : Nat) (i : Int) :
    pyIdx n i = none ↔ i < -(n : Int) ∨ (n : Int) ≤ i := by
  unfold pyIdx
  split_ifs with h1 h2 <;> simp <;> omega

theorem toggle_flagI_eq_none_iff (b : GameBoard) (row col : Int) :
    toggle_flagI b row col = none ↔
      pyIdx b.rows row = none ∨ pyIdx b.cols col = none := by
  unfold toggle_flagI
  cases pyIdx b.rows row <;> cases pyIdx b.cols col <;> simp

theorem reveal_cellI_eq_none_iff (b : GameBoard) (row col : Int) :
    reveal_cellI b row col = none ↔
      pyIdx b.rows row = none ∨ pyIdx b.cols col = none := by
  unfold reveal_cellI
  cases pyIdx b.rows row <;> cases pyIdx b.cols col <;>
    simp <;> split_ifs <;> simp

/-- C9 (amended).  `reveal_cell` and `toggle_flag` raise an `IndexError`
exactly for coordinates outside `[-rows, rows) × [-cols, cols)` — Python's
indexing range; negative coordinates inside that range are silently
accepted and wrap around (see the counterexample), so out-of-grid
coordinates are *not* uniformly rejected. -/
theorem oob_error_iff (b : GameBoard) (row col : Int) :
    (toggle_flagI b row col = none ↔
      row < -(b.rows : Int) ∨ (b.rows : Int) ≤ row ∨
        col < -(b.cols : Int) ∨ (b.cols : Int) ≤ col) ∧
    (reveal_cellI b row col = none ↔
      row < -(b.rows : Int) ∨ (b.rows : Int) ≤ row ∨
        col < -(b.cols : Int) ∨ (b.cols : Int) ≤ col) := by
  rw [toggle_flagI_eq_none_iff, reveal_cellI_eq_none_iff,
    pyIdx_eq_none_iff, pyIdx_eq_none_iff]
  constructor <;> constructor <;> intro h <;> omega

/-- C9 counterexample.  `toggle_flag(-1, 0)` on a fresh 9×9 board does not
raise: the coordinate `(-1, 0)` is outside the grid, yet Python indexing
wraps it to row 8, and the call silently flags cell `(8, 0)`. -/
theorem oob_wraps_counterexample :
    (toggle_flagI (initBoard 9 9 10) (-1) 0).isSome = true ∧
      (toggle_flagI (initBoard 9 9 10) (-1) 0).map
          (fun bb => ((bb.grid 8 0).state, bb.remaining_mines)) =
        some (CellState.Flagged, 9) := by
  decide

instance (b : GameBoard) (fr fc : Nat) (sample : List (Nat × Nat)) :
    Decidable (SampleOK b fr fc sample) := by
  unfold SampleOK
  infer_instance

instance (b : GameBoard) : Decidable (countsOK b) := by
  unfold countsOK
  infer_instance

/-- `calculate_neighbor_mines` always establishes `countsOK`. -/
theorem countsOK_calc (b : GameBoard) : countsOK (calculate_neighbor_mines b) := by
  intro r hr c hc hm
  rw [calc_grid_is_mine] at hm
  have hcell : (calculate_neighbor_mines b).grid r c =
      { b.grid r c with neighbor_mines := neighbor_count b r c } := by
    show (if _ then _ else _ : Cell) = _
    rw [if_pos ⟨hr, hc, hm⟩]
  rw [hcell, mineAdjCount_calc]
  exact neighbor_count_eq b r c

/-- A 3×3 board with the mine set at `(2, 2)` but counts not yet computed. -/
def minedBoard : GameBoard :=
  ([(2, 2)] : List (Nat × Nat)).foldl (fun acc q => setMine acc q.1 q.2)
    (initBoard 3 3 1)

/-- A 3×3 board with a mine at `(2, 2)` and neighbour counts computed, as
`place_mines` leaves it after a first click at `(0, 0)`. -/
def placedBoard : GameBoard := place_mines (initBoard 3 3 1) 0 0 [(2, 2)]

theorem first_move_safety_witness :
    SampleOK (initBoard 3 3 1) 0 0 [(2, 2)] ∧
      ((place_mines (initBoard 3 3 1) 0 0 [(2, 2)]).grid 1 1).is_mine =
        false :=
  ⟨by decide, first_move_safety 3 3 1 0 0 [(2, 2)] (by decide) (by decide)
    (by decide) 1 1 (by decide) (by decide) (by decide) (by decide)⟩

theorem mines_placed_exactly_witness :
    (mineSet (place_mines (initBoard 3 3 1) 0 0 [(2, 2)])).card = 1 ∧
      ∀ q ∈ mineSet (place_mines (initBoard 3 3 1) 0 0 [(2, 2)]),
        q ∉ safe_zone 3 3 0 0 :=
  mines_placed_exactly 3 3 1 0 0 [(2, 2)] (by decide) (by decide) (by decide)
    (by decide)

theorem neighbor_counts_correct_witness :
    ((calculate_neighbor_mines minedBoard).grid 1 1).neighbor_mines =
        mineAdjCount (calculate_neighbor_mines minedBoard) 1 1 ∧
      ((calculate_neighbor_mines minedBoard).grid 1 1).neighbor_mines ≤ 8 :=
  neighbor_counts_correct minedBoard 1 1 (by decide) (by decide) (by decide)

set_option maxHeartbeats 1000000 in
theorem flood_fill_confluent_witness :
    countsOK placedBoard ∧
      ∀ ord : List (Int × Int), ord.Perm offsets → ∀ q : Nat × Nat,
        ((reach placedBoard (0, 0) q ∧
            (placedBoard.grid q.1 q.2).state = CellState.Hidden) →
          (((reveal_cellOrd ord placedBoard (0, 0).1 (0, 0).2).1).grid
            q.1 q.2).state = CellState.Revealed) ∧
        (¬(reach placedBoard (0, 0) q ∧
            (placedBoard.grid q.1 q.2).state = CellState.Hidden) →
          (((reveal_cellOrd ord placedBoard (0, 0).1 (0, 0).2).1).grid
            q.1 q.2).state = (placedBoard.grid q.1 q.2).state) ∧
        (((reveal_cellOrd ord placedBoard (0, 0).1 (0, 0).2).1).grid
            q.1 q.2).state =
          (((reveal_cell placedBoard (0, 0).1 (0, 0).2).1).grid
            q.1 q.2).state :=
  ⟨countsOK_calc _, flood_fill_confluent placedBoard (0, 0) (by decide)
    (by decide) (by decide) (by decide) (by decide) (countsOK_calc _)⟩

theorem terminal_absorption_handlers_witness :
    left_click wonBoard [] 0 0 = wonBoard ∧
      right_click wonBoard 0 0 = wonBoard :=
  terminal_absorption_handlers wonBoard [] 0 0 (by decide)

theorem reveal_mine_and_noop_witness :
    ((minedBoard.grid 2 2).state = CellState.Hidden →
      (minedBoard.grid 2 2).is_mine = true →
      (reveal_cell minedBoard 2 2).2 = true ∧
      (reveal_cell minedBoard 2 2).1.game_over = true ∧
      ((reveal_cell minedBoard 2 2).1.grid 2 2).state =
        CellState.Revealed ∧
      (∀ r' c' : Nat, ¬(r' = 2 ∧ c' = 2) →
        (reveal_cell minedBoard 2 2).1.grid r' c' = minedBoard.grid r' c') ∧
      (reveal_cell minedBoard 2 2).1.remaining_mines =
        minedBoard.remaining_mines ∧
      (reveal_cell minedBoard 2 2).1.first_click = minedBoard.first_click) ∧
    ((minedBoard.grid 2 2).state ≠ CellState.Hidden →
      reveal_cell minedBoard 2 2 = (minedBoard, false)) :=
  reveal_mine_and_noop minedBoard 2 2 (by decide) (by decide)

theorem reveal_terminates_witness :
    revealFuel offsets 10 placedBoard 0 0 = reveal_cell placedBoard 0 0 ∧
      hiddenCount placedBoard ≤ placedBoard.rows * placedBoard.cols ∧
      ((placedBoard.grid 0 0).state = CellState.Hidden →
        hiddenCount (reveal_cell placedBoard 0 0).1 <
          hiddenCount placedBoard) :=
  reveal_terminates placedBoard 0 0 10 (by decide) (by decide) (by decide)

end Minesweeper
